import Mathlib

/-!
Verification of the flash command-sequencing core of the `gice` repository
(`flash.go`, and the fuller iteration of the same file containing `BusyWait`,
`ReadStatusRegister` and the timing-parameter table).

The Go code is shallowly embedded as follows:

* machine integers (`int`, `time.Duration` in nanoseconds, bytes) become
  `Int` / `Nat`, with the 24-bit frame truncation written out explicitly
  where the source converts with `byte(addr >> k)`;
* the SPI transport is modelled by an oracle of outcomes
  (`Option Nat` = `nil` / a concrete error) where a claim is about error
  paths, and as an ideal byte-exchange against a reference memory where a
  claim is about data or command sequencing;
* each stateful operation is embedded as a pure function from its inputs
  (and oracle) to the list of bus events / commands it issues plus its
  returned value or error.
-/

namespace Gice

/-! ### Chip-select bracketing (`Flash.tx`)

`tx` asserts chip-select (`f.cs.Out(gpio.Low)`), returning immediately on an
assertion error; it then installs a deferred deassertion
(`f.cs.Out(gpio.High)`) whose error replaces the result only when the
transaction itself returned `nil`; finally it runs `f.conn.Tx(buf, buf)`.
All bus-facing operations of the source go through this single helper. -/

/-- Bus-level events a `tx` call can emit: chip-select assert attempt,
the SPI transaction attempt, chip-select deassert attempt. -/
inductive BusEv
  | csLow
  | transact
  | csHigh
deriving DecidableEq

/-- Embedding of `Flash.tx`.  The three oracle arguments are the outcomes of
chip-select assertion, the SPI transaction, and chip-select deassertion
(`none` = success, `some e` = a concrete transport error).  Returns the list
of attempted bus events in order, and the error `tx` returns. -/
def txModel (eLow eTx eHigh : Option Nat) : List BusEv × Option Nat :=
  match eLow with
  | some e => ([BusEv.csLow], some e)
  | none =>
    match eTx with
    | some e => ([BusEv.csLow, BusEv.transact, BusEv.csHigh], some e)
    | none => ([BusEv.csLow, BusEv.transact, BusEv.csHigh], eHigh)

/-! ### Busy polling (`Flash.BusyWait`)

`BusyWait(interval, timeout)` first reads the status register once and
returns `nil` if that read succeeded and the busy bit is clear.  Otherwise it
starts a timer at `timeout` and a ticker at `interval` and loops on a
`select`: the timer firing returns `nil`; a tick re-reads the status
register, returning the read's error if it failed, `nil` if the busy bit is
clear, and looping otherwise.

The model covers the `timeout > 0` mode (the timer armed; `timeout = 0`
disables the timer and polls indefinitely, which has no total embedding).
The ticker fires at times `interval, 2*interval, ...`, so the number of
ticks the loop can consume before the timer fires is the number of multiples
of `interval` strictly below `timeout`; when a tick and the timer coincide,
Go's `select` picks randomly, and the model resolves the tie in the timer's
favour (the claims below are settled on tie-free inputs).  Status reads are
an oracle `reads : Nat → Except Nat Nat` giving the result of the i-th
`ReadStatusRegister` call (index 0 is the fast-path read). -/

/-- Busy bit of the status register: bit 0 (`sr&(1<<0) != 0`). -/
def srBusy (sr : Nat) : Bool := sr &&& 1 != 0

/-- Number of ticker events strictly before the timer fires
(`timeout ≥ 1` assumed; ticks happen at `interval, 2*interval, ...`). -/
def numTicks (interval timeout : Nat) : Nat := (timeout - 1) / interval

/-- The polling loop of `BusyWait`: `i` is the index of the next status
read, the `Nat` argument the number of ticks remaining before the timer
fires (the timer firing returns success). -/
def busyLoop (reads : Nat → Except Nat Nat) (i : Nat) : Nat → Except Nat Unit
  | 0 => Except.ok ()
  | Nat.succ t =>
    match reads i with
    | Except.error e => Except.error e
    | Except.ok sr => if srBusy sr then busyLoop reads (i + 1) t else Except.ok ()

/-- Embedding of `Flash.BusyWait` for `timeout > 0`: fast-path status read
(its error is discarded: the source tests `err == nil && !sr.Busy()`),
then the timer/ticker loop. -/
def busyWaitM (interval timeout : Nat) (reads : Nat → Except Nat Nat) : Except Nat Unit :=
  match reads 0 with
  | Except.ok sr =>
    if srBusy sr then busyLoop reads 1 (numTicks interval timeout) else Except.ok ()
  | Except.error _ => busyLoop reads 1 (numTicks interval timeout)

/-- Status-read oracle on which every read fails with transport error 7. -/
def allFailReads : Nat → Except Nat Nat := fun _ => Except.error 7

/-- Status-read oracle on which every read succeeds with the busy bit set. -/
def allBusyReads : Nat → Except Nat Nat := fun _ => Except.ok 1

/-- Status-read oracle whose first two reads (fast path and first poll)
report busy and whose later reads fail with transport error 7. -/
def busyThenFailReads : Nat → Except Nat Nat :=
  fun i => if i < 2 then Except.ok 1 else Except.error 7

/-! ### Timing parameters (`flashParams`, `knownFlash`, `paramOrMax`)

Durations are in nanoseconds.  Fields the source's composite literal omits
default to `0`, exactly as Go zero-initializes them. -/

/-- A 3-byte JEDEC flash identity. -/
structure FlashId where
  b0 : Nat
  b1 : Nat
  b2 : Nat
deriving DecidableEq

/-- Per-chip timing parameters (`flashParams` in the source). -/
structure flashParams where
  name : String
  tRES1 : Nat
  tDP : Nat
  tPP : Nat
  tErase4KB : Nat
  tErase64KB : Nat
  tEraseChip : Nat
deriving DecidableEq

/-- JEDEC identity of the Micron N25Q 32Mb part. -/
def flashIDMicronN25Q32 : FlashId := ⟨0x20, 0xBA, 0x16⟩

/-- JEDEC identity of the Winbond W25Q 128Mb part. -/
def flashIDWinbondW25Q128 : FlashId := ⟨0xEF, 0x70, 0x18⟩

/-- Timing parameters of the Micron part (`tRES1`/`tDP` are omitted by the
source literal, hence zero). -/
def micronParams : flashParams :=
  { name := "Micron N25Q 32Mb"
    tRES1 := 0
    tDP := 0
    tPP := 5000000
    tErase4KB := 800000000
    tErase64KB := 3000000000
    tEraseChip := 60000000000 }

/-- Timing parameters of the Winbond part. -/
def winbondParams : flashParams :=
  { name := "Winbond W25Q 128Mb"
    tRES1 := 3000
    tDP := 3000
    tPP := 3000000
    tErase4KB := 400000000
    tErase64KB := 2000000000
    tEraseChip := 200000000000 }

/-- The `knownFlash` table. -/
def knownFlash : List (FlashId × flashParams) :=
  [(flashIDMicronN25Q32, micronParams), (flashIDWinbondW25Q128, winbondParams)]

/-- Identity-to-parameters resolution performed by `ReadID`: `f.pr` is set
to the table entry when the identity is present, and stays `nil` otherwise. -/
def lookupFlash (id : FlashId) : Option flashParams :=
  (knownFlash.find? (fun kp => kp.1 = id)).map (fun kp => kp.2)

/-- Embedding of `Flash.paramOrMax`: the configured parameter when one was
resolved, otherwise the running maximum (starting from the zero duration) of
the field over every entry of `knownFlash`. -/
def paramOrMax (pr : Option flashParams) (get : flashParams → Nat) : Nat :=
  match pr with
  | some p => get p
  | none => knownFlash.foldl (fun tmax kp => max tmax (get kp.2)) 0

/-- The six timing queries of the source (`f.tRES1()` … `f.tEraseChip()`),
as functions of the resolved identity. -/
def tRES1of (id : FlashId) : Nat := paramOrMax (lookupFlash id) (fun p => p.tRES1)

/-- Power-down settle time query. -/
def tDPof (id : FlashId) : Nat := paramOrMax (lookupFlash id) (fun p => p.tDP)

/-- Page-program cycle time query. -/
def tPPof (id : FlashId) : Nat := paramOrMax (lookupFlash id) (fun p => p.tPP)

/-- 4KB erase cycle time query. -/
def tErase4KBof (id : FlashId) : Nat := paramOrMax (lookupFlash id) (fun p => p.tErase4KB)

/-- 64KB erase cycle time query. -/
def tErase64KBof (id : FlashId) : Nat := paramOrMax (lookupFlash id) (fun p => p.tErase64KB)

/-- Chip erase cycle time query. -/
def tEraseChipof (id : FlashId) : Nat := paramOrMax (lookupFlash id) (fun p => p.tEraseChip)

/-! ### Chunked read (`Flash.Read`)

`Read(addr, n)` loops: `chunk := min(remaining, maxData)` with
`maxData = 65536 - 4`; it fills a frame whose address bytes are
`byte(addr>>16), byte(addr>>8), byte(addr)`, runs the transaction, copies
the returned bytes after the 4 command bytes into the output at the current
offset, and advances `addr`, `off`, `remaining` by `chunk`.  There is no
range validation of `addr` or `n` anywhere in the function.

The flash device is modelled as a reference memory of `2^24` bytes; a read
transaction whose frame carries the 24-bit address `a` returns the bytes at
`a, a+1, ...` taken modulo `2^24` (serial NOR flash continuous reads wrap
from the top of memory to address 0, and this makes the reference model
total).  The transport is ideal here: transport errors are the subject of
the `tx` model above, not of the chunking claims. -/

/-- Go's `byte(x)` conversion of a (signed) integer: the low 8 bits in
two's complement, i.e. the remainder modulo 256 in `[0, 256)` (`%` on `Int`
is the Euclidean remainder). -/
def goByte (x : Int) : Nat := (x % 256).toNat

/-- The 24-bit address carried by a frame built from `addr`: the three
address bytes `byte(addr>>16), byte(addr>>8), byte(addr)` (Go's `>>` on a
signed integer is an arithmetic shift, i.e. floor division by `2^k`, which
for a positive divisor coincides with `Int`'s Euclidean `/`). -/
def frameAddr (addr : Int) : Nat :=
  65536 * goByte (addr / 65536) + 256 * goByte (addr / 256) + goByte addr

/-- Byte `j` of a read transaction whose frame carries address `a`:
the reference memory at `a + j`, wrapping modulo `2^24`. -/
def devReadByte (mem : Nat → Nat) (a j : Nat) : Nat := mem ((a + j) % 16777216)

/-- The data bytes returned by a single read transaction of `c` bytes whose
frame carries address `a`. -/
def devRead (mem : Nat → Nat) (a c : Nat) : List Nat :=
  (List.range c).map (devReadByte mem a)

/-- Maximum data bytes per transaction: `maxTx - cmdBytes = 65536 - 4`. -/
def maxData : Nat := 65536 - 4

/-- The `(frame address, chunk size)` of each transaction issued by
`Flash.Read(addr, n)`, in issuance order. -/
def flashReadFrames (addr : Int) (n : Nat) : List (Nat × Nat) :=
  if n = 0 then []
  else
    (frameAddr addr, min n maxData) ::
      flashReadFrames (addr + (min n maxData : Nat)) (n - min n maxData)
termination_by n
decreasing_by simp only [maxData] at *; omega

/-- The bytes returned by `Flash.Read(addr, n)`: the concatenation, in
issuance order, of the data bytes of each chunk transaction. -/
def flashRead (mem : Nat → Nat) (addr : Int) (n : Nat) : List Nat :=
  if n = 0 then []
  else
    devRead mem (frameAddr addr) (min n maxData) ++
      flashRead mem (addr + (min n maxData : Nat)) (n - min n maxData)
termination_by n
decreasing_by simp only [maxData] at *; omega

/-- A single unchunked read of `n` bytes starting at `addr` against the
reference memory: one transaction, ignoring the transaction-size limit.
This is the spec-side reference behaviour the chunked read is compared
against. -/
def singleRead (mem : Nat → Nat) (addr : Int) (n : Nat) : List Nat :=
  devRead mem (frameAddr addr) n

/-! ### Streamed program (`Flash.pageProgram`, `Flash.Write`)

`pageProgram(addr, data)` first issues WriteEnable, then validates
`0 ≤ addr ≤ 0xFFFFFF` and `len(data) ≤ 256` (returning a range error after
the WriteEnable when validation fails), then transmits the PageProgram
frame and busy-waits.  `Write(r)` reads the stream into a 256-byte buffer
and calls `pageProgram` per piece, starting at address 0 and advancing by
each consumed piece's length; the claims concern a stream whose reads
deliver full 256-byte pieces until the data runs out, which is exactly the
successive 256-byte chunks of the stream's byte list.  The transport is
ideal (the WriteEnable, PageProgram and status transactions themselves
succeed); the trace records the commands issued. -/

/-- Commands (and the busy wait) a program operation issues, in order. -/
inductive Cmd
  | writeEnable : Cmd
  | pageProgram (addr : Int) (data : List Nat) : Cmd
  | busyWait : Cmd
deriving DecidableEq

/-- Validation errors of `pageProgram`. -/
inductive PErr
  | addrRange
  | dataTooLong
deriving DecidableEq

/-- Embedding of `Flash.pageProgram`: WriteEnable first, then the 24-bit
address check (`addr < 0 || addr > 0xFFFFFF`), then the 256-byte payload
check, then the PageProgram frame followed by the busy wait. -/
def pageProgramModel (addr : Int) (data : List Nat) : List Cmd × Option PErr :=
  if addr < 0 ∨ addr > 16777215 then ([Cmd.writeEnable], some PErr.addrRange)
  else if data.length > 256 then ([Cmd.writeEnable], some PErr.dataTooLong)
  else ([Cmd.writeEnable, Cmd.pageProgram addr data, Cmd.busyWait], none)

/-- Embedding of `Flash.Write` on the stream's byte list: per loop
iteration the reader delivers `min 256 remaining` bytes, `pageProgram` runs
on the piece, and the address advances by the piece's length.  Returns the
concatenated command trace and the first error. -/
def writeGo (data : List Nat) (addr : Int) : List Cmd × Option PErr :=
  if data.isEmpty then ([], none)
  else
    match pageProgramModel addr (data.take 256) with
    | (tr, some e) => (tr, some e)
    | (tr, none) =>
      let rest := writeGo (data.drop 256) (addr + (data.take 256).length)
      (tr ++ rest.1, rest.2)
termination_by data.length
decreasing_by
  have h : data ≠ [] := by simp_all [List.isEmpty_iff]
  have hp : 0 < data.length := List.length_pos.mpr h
  simp only [List.length_drop]
  omega

/-- The successive ≤256-byte pieces the stream delivers (all pieces full
except possibly the last). -/
def chunks256 (data : List Nat) : List (List Nat) :=
  if data.isEmpty then []
  else data.take 256 :: chunks256 (data.drop 256)
termination_by data.length
decreasing_by
  have h : data ≠ [] := by simp_all [List.isEmpty_iff]
  have hp : 0 < data.length := List.length_pos.mpr h
  simp only [List.length_drop]
  omega

/-- The WriteEnable / PageProgram / busy-wait triple one piece produces. -/
def pieceTriple (addr : Int) (piece : List Nat) : List Cmd :=
  [Cmd.writeEnable, Cmd.pageProgram addr piece, Cmd.busyWait]

/-- Number of PageProgram commands in a trace. -/
def countPP (tr : List Cmd) : Nat :=
  (tr.filter (fun c => match c with | Cmd.pageProgram _ _ => true | _ => false)).length

/-- The spec-side write trace: one WriteEnable / PageProgram / busy-wait
triple per piece, the k-th piece programmed at address `256 * k` (the total
length of the previously consumed, all-full pieces). -/
def specWriteTrace (data : List Nat) : List Cmd :=
  (((chunks256 data).enum).map (fun p => pieceTriple (256 * (p.1 : Int)) p.2)).flatten

/-! ### Erase planning (`Flash.Erase`)

`Erase(baseAddr, size)` keeps `remaining`/`addr`; while
`remaining ≥ 64KB` it issues a 64KB erase at `addr`, advancing both by
64KB; then while `remaining > 0` it issues a 4KB erase at `addr`, advancing
`addr` by 4KB and decrementing `remaining` by 4KB (possibly past zero).
Every step carries its absolute start address.  The model records the erase
steps (each erase in the source is additionally bracketed by WriteEnable
and a busy wait, which the erase-plan claims do not concern). -/

/-- One erase step: granularity and absolute start address. -/
inductive EraseStep
  | e64 (addr : Int) : EraseStep
  | e4 (addr : Int) : EraseStep
deriving DecidableEq

/-- Start address of an erase step. -/
def stepAddr : EraseStep → Int
  | EraseStep.e64 a => a
  | EraseStep.e4 a => a

/-- Number of bytes an erase step affects. -/
def stepSize : EraseStep → Int
  | EraseStep.e64 _ => 65536
  | EraseStep.e4 _ => 4096

/-- The 64KB loop of `Erase`: steps issued, final `addr`, final
`remaining`. -/
def eraseLoop64 (remaining addr : Int) : List EraseStep × Int × Int :=
  if remaining ≥ 65536 then
    let r := eraseLoop64 (remaining - 65536) (addr + 65536)
    (EraseStep.e64 addr :: r.1, r.2)
  else ([], addr, remaining)
termination_by remaining.toNat
decreasing_by omega

/-- The 4KB loop of `Erase`. -/
def eraseLoop4 (remaining addr : Int) : List EraseStep :=
  if remaining > 0 then EraseStep.e4 addr :: eraseLoop4 (remaining - 4096) (addr + 4096)
  else []
termination_by remaining.toNat
decreasing_by omega

/-- Embedding of `Flash.Erase(baseAddr, size)`: the 64KB loop, then the 4KB
loop on its final address and remainder. -/
def eraseTrace (base size : Int) : List EraseStep :=
  let r := eraseLoop64 size base
  r.1 ++ eraseLoop4 r.2.2 r.2.1

/-- The greedy erase plan as the spec words it: 64KB erases at
`base, base+64KB, ...` while at least 64KB remain, then 4KB erases at 4KB
increments covering the remainder. -/
def eraseGreedySpec (base size : Int) : List EraseStep :=
  ((List.range (size.toNat / 65536)).map fun k : Nat => EraseStep.e64 (base + 65536 * k)) ++
    ((List.range ((size.toNat % 65536 + 4095) / 4096)).map fun k : Nat =>
      EraseStep.e4 (base + 65536 * ((size.toNat / 65536 : Nat) : Int) + 4096 * k))

/-- A point `x` lies in the byte range some step of `l` erases. -/
def coveredBy (l : List EraseStep) (x : Int) : Prop :=
  ∃ s ∈ l, stepAddr s ≤ x ∧ x < stepAddr s + stepSize s

instance (l : List EraseStep) (x : Int) : Decidable (coveredBy l x) := by
  unfold coveredBy; infer_instance

/-- Two erase steps touch disjoint byte ranges. -/
def stepDisjoint (s t : EraseStep) : Prop :=
  stepAddr s + stepSize s ≤ stepAddr t ∨ stepAddr t + stepSize t ≤ stepAddr s

/-- Total bytes a list of erase steps nominally spans. -/
def sumSizes (l : List EraseStep) : Int := (l.map stepSize).sum

/-- The steps of `l` tile contiguously from `a`: each step starts exactly
where the previous one ended. -/
inductive StepChain : Int → List EraseStep → Prop
  | nil (a : Int) : StepChain a []
  | cons {a : Int} {s : EraseStep} {l : List EraseStep} :
      stepAddr s = a → StepChain (a + stepSize s) l → StepChain a (s :: l)

/-- The 4KB round-up of `size` the erase plan actually spans:
`65536 * (size / 64K) + 4096 * ceil((size mod 64K) / 4K)`. -/
def eraseExtent (size : Int) : Int :=
  (4096 * ((size.toNat + 4095) / 4096) : Nat)

/-! ## Theorems -/

/-- C9: every bus-facing operation runs through `tx`, which asserts
chip-select before the transaction, attempts deassertion on every exit path
on which the transaction was issued (including a failing transaction), and
reports a deassertion failure only when the transaction succeeded: the
transaction's error takes precedence. -/
theorem tx_cs_bracketing (eLow eTx eHigh : Option Nat) :
    (BusEv.transact ∈ (txModel eLow eTx eHigh).1 →
      (txModel eLow eTx eHigh).1 = [BusEv.csLow, BusEv.transact, BusEv.csHigh]) ∧
    (eLow = none → BusEv.csHigh ∈ (txModel eLow eTx eHigh).1) ∧
    (eLow = none → ∀ e, eTx = some e → (txModel eLow eTx eHigh).2 = some e) ∧
    (eLow = none → eTx = none → (txModel eLow eTx eHigh).2 = eHigh) := by
  cases eLow <;> cases eTx <;> simp [txModel]

/-- Witness for C9: with a failing transaction and a failing deassertion,
deassertion is still attempted and the transaction's error is the one
reported; with a successful transaction, the deassertion error surfaces. -/
theorem tx_cs_bracketing_witness :
    (txModel none (some 3) (some 5)).1 = [BusEv.csLow, BusEv.transact, BusEv.csHigh] ∧
    (txModel none (some 3) (some 5)).2 = some 3 ∧
    (txModel none none (some 5)).2 = some 5 :=
  ⟨(tx_cs_bracketing none (some 3) (some 5)).1 (by decide),
   (tx_cs_bracketing none (some 3) (some 5)).2.2.1 rfl 3 rfl,
   (tx_cs_bracketing none none (some 5)).2.2.2 rfl rfl⟩

/-- C5: with a positive timeout, when every status read succeeds but the
busy bit never clears, `BusyWait` returns success (`nil`) once the timeout
fires: a timeout is treated as success regardless of the device still being
busy. -/
theorem busyWait_timeout_is_success (interval timeout : Nat)
    (reads : Nat → Except Nat Nat)
    (_hiv : 0 < interval) (_hto : 0 < timeout)
    (hbusy : ∀ i, ∃ sr, reads i = Except.ok sr ∧ srBusy sr = true) :
    busyWaitM interval timeout reads = Except.ok () := by
  have hloop : ∀ t i, busyLoop reads i t = Except.ok () := by
    intro t
    induction t with
    | zero => intro i; rfl
    | succ t ih =>
      intro i
      obtain ⟨sr, hr, hb⟩ := hbusy i
      simp [busyLoop, hr, hb, ih]
  obtain ⟨sr, hr, hb⟩ := hbusy 0
  simp [busyWaitM, hr, hb, hloop]

/-- Witness for C5: interval 3, timeout 10, all reads busy: success. -/
theorem busyWait_timeout_is_success_witness :
    busyWaitM 3 10 allBusyReads = Except.ok () :=
  busyWait_timeout_is_success 3 10 allBusyReads (by decide) (by decide)
    (fun _ => ⟨1, rfl, rfl⟩)

/-- C4 counterexample: with poll interval 2 and timeout 1, every status
read fails with transport error 7, yet `BusyWait` returns success: the
fast-path read's error is discarded (`err == nil && !sr.Busy()`), and the
timer fires before the first tick would retry the read. -/
theorem busyWait_read_error_cex :
    busyWaitM 2 1 allFailReads = Except.ok () := rfl

/-- The polling loop propagates the first failing status read: if the read
at index `k` fails within the loop's tick budget and every earlier loop
read reported busy, the loop returns that error. -/
theorem busyLoop_error (reads : Nat → Except Nat Nat) (e : Nat) :
    ∀ (t i k : Nat), i ≤ k → k < i + t →
    (∀ j, i ≤ j → j < k → ∃ sr, reads j = Except.ok sr ∧ srBusy sr = true) →
    reads k = Except.error e →
    busyLoop reads i t = Except.error e := by
  intro t
  induction t with
  | zero => intro i k h1 h2 _ _; omega
  | succ t ih =>
    intro i k h1 h2 hbusy herr
    by_cases hik : i = k
    · subst hik
      simp [busyLoop, herr]
    · obtain ⟨sr, hr, hb⟩ := hbusy i (le_refl i) (by omega)
      simp only [busyLoop, hr, hb, if_true]
      exact ih (i + 1) k (by omega) (by omega)
        (fun j hj1 hj2 => hbusy j (by omega) hj2) herr

/-- C4 (amended): a transport error from a status read inside the polling
loop is returned to the caller: whenever the fast path does not return
early and the read of any poll `k` occurring at or before the timeout
fails (the earlier polls having reported busy), `BusyWait` returns that
error.  (Only the initial fast-path read's error is discarded.) -/
theorem busyWait_loop_error_returned (interval timeout : Nat)
    (reads : Nat → Except Nat Nat) (e : Nat) (k : Nat)
    (hk1 : 1 ≤ k) (hk2 : k ≤ numTicks interval timeout)
    (hfast : ∀ sr, reads 0 = Except.ok sr → srBusy sr = true)
    (hbusy : ∀ j, 1 ≤ j → j < k → ∃ sr, reads j = Except.ok sr ∧ srBusy sr = true)
    (herr : reads k = Except.error e) :
    busyWaitM interval timeout reads = Except.error e := by
  have hloop : busyLoop reads 1 (numTicks interval timeout) = Except.error e :=
    busyLoop_error reads e (numTicks interval timeout) 1 k hk1 (by omega) hbusy herr
  unfold busyWaitM
  cases hr : reads 0 with
  | error e0 => exact hloop
  | ok sr =>
    have hb := hfast sr hr
    simp [hb, hloop]

/-- Witness for C4 (amended): interval 1, timeout 4, fast path and first
poll busy, second poll failing: the second poll's error is returned. -/
theorem busyWait_loop_error_returned_witness :
    busyWaitM 1 4 busyThenFailReads = Except.error 7 :=
  busyWait_loop_error_returned 1 4 busyThenFailReads 7 2 (by decide) (by decide)
    (fun sr h => by
      simp [busyThenFailReads] at h
      subst h
      rfl)
    (fun j h1 h2 => ⟨1, by simp [busyThenFailReads]; omega, rfl⟩) rfl

/-- C6: for an identity absent from `knownFlash`, each of the six timing
queries returns the maximum of that field across all known profiles; for a
present identity, each query returns that profile's own field. -/
theorem timing_lookup_max_or_own (id : FlashId) :
    (lookupFlash id = none →
      tRES1of id = max micronParams.tRES1 winbondParams.tRES1 ∧
      tDPof id = max micronParams.tDP winbondParams.tDP ∧
      tPPof id = max micronParams.tPP winbondParams.tPP ∧
      tErase4KBof id = max micronParams.tErase4KB winbondParams.tErase4KB ∧
      tErase64KBof id = max micronParams.tErase64KB winbondParams.tErase64KB ∧
      tEraseChipof id = max micronParams.tEraseChip winbondParams.tEraseChip) ∧
    (∀ p, lookupFlash id = some p →
      tRES1of id = p.tRES1 ∧ tDPof id = p.tDP ∧ tPPof id = p.tPP ∧
      tErase4KBof id = p.tErase4KB ∧ tErase64KBof id = p.tErase64KB ∧
      tEraseChipof id = p.tEraseChip) := by
  constructor
  · intro h
    unfold tRES1of tDPof tPPof tErase4KBof tErase64KBof tEraseChipof
    rw [h]
    exact ⟨rfl, rfl, rfl, rfl, rfl, rfl⟩
  · intro p h
    unfold tRES1of tDPof tPPof tErase4KBof tErase64KBof tEraseChipof
    rw [h]
    exact ⟨rfl, rfl, rfl, rfl, rfl, rfl⟩

/-- Witness for C6: the identity `(0,0,0)` is unknown and resolves to the
element-wise maxima (`tPP` from Micron, `tEraseChip` from Winbond); the
Micron identity resolves to its own profile. -/
theorem timing_lookup_max_or_own_witness :
    tPPof ⟨0, 0, 0⟩ = 5000000 ∧ tEraseChipof ⟨0, 0, 0⟩ = 200000000000 ∧
    tPPof flashIDMicronN25Q32 = 5000000 ∧
    tEraseChipof flashIDMicronN25Q32 = 60000000000 := by
  have hu := (timing_lookup_max_or_own ⟨0, 0, 0⟩).1 rfl
  have hk := (timing_lookup_max_or_own flashIDMicronN25Q32).2 micronParams rfl
  exact ⟨hu.2.2.1, hu.2.2.2.2.2, hk.2.2.1, hk.2.2.2.2.2⟩

/-- The three address bytes of a frame encode `addr` modulo `2^24`. -/
theorem frameAddr_eq (a : Int) : frameAddr a = (a % 16777216).toNat := by
  have hk := Int.ediv_add_emod a 16777216
  set k := a / 16777216 with hkdef
  set m := a % 16777216 with hmdef
  have hm0 : 0 ≤ m := Int.emod_nonneg a (by norm_num)
  have hm1 : m < 16777216 := Int.emod_lt_of_pos a (by norm_num)
  have hb0 : goByte a = m.toNat % 256 := by
    unfold goByte
    have h2 : a % 256 = m % 256 :=
      (Int.emod_emod_of_dvd a (by norm_num : (256 : Int) ∣ 16777216)).symm
    rw [h2]
    omega
  have hd256 : a / 256 = m / 256 + 65536 * k := by
    rw [← hk]
    have h3 : 16777216 * k + m = m + 256 * (65536 * k) := by ring
    rw [h3, Int.add_mul_ediv_left m (65536 * k) (by norm_num)]
  have hb1 : goByte (a / 256) = m.toNat / 256 % 256 := by
    unfold goByte
    rw [hd256]
    have h4 : (m / 256 + 65536 * k) % 256 = (m / 256 + 256 * (256 * k)) % 256 := by ring_nf
    rw [h4, Int.add_mul_emod_self_left]
    omega
  have hd65536 : a / 65536 = m / 65536 + 256 * k := by
    rw [← hk]
    have h5 : 16777216 * k + m = m + 65536 * (256 * k) := by ring
    rw [h5, Int.add_mul_ediv_left m (256 * k) (by norm_num)]
  have hb2 : goByte (a / 65536) = m.toNat / 65536 % 256 := by
    unfold goByte
    rw [hd65536, Int.add_mul_emod_self_left]
    omega
  unfold frameAddr
  rw [hb0, hb1, hb2]
  show _ = m.toNat
  omega

/-- Byte `j` of a transaction framed at `addr` is the reference memory at
`addr + j` reduced modulo `2^24`. -/
theorem devReadByte_frame (mem : Nat → Nat) (a : Int) (j : Nat) :
    devReadByte mem (frameAddr a) j = mem (((a + (j : Int)) % 16777216).toNat) := by
  unfold devReadByte
  rw [frameAddr_eq]
  have h1 : (a + (j : Int)) % 16777216 = (a % 16777216 + (j : Int)) % 16777216 :=
    (Int.emod_add_emod a 16777216 j).symm
  rw [h1]
  have hm0 : 0 ≤ a % 16777216 := Int.emod_nonneg a (by norm_num)
  have hm1 : a % 16777216 < 16777216 := Int.emod_lt_of_pos a (by norm_num)
  generalize hg : a % 16777216 = m at hm0 hm1 ⊢
  congr 1
  omega

/-- A transaction framed at `addr` returns the `c` reference-memory bytes at
`addr, addr + 1, ...` modulo `2^24`. -/
theorem devRead_frame (mem : Nat → Nat) (a : Int) (c : Nat) :
    devRead mem (frameAddr a) c =
      (List.range c).map (fun j : Nat => mem (((a + (j : Int)) % 16777216).toNat)) := by
  unfold devRead
  exact List.map_congr_left (fun j _ => devReadByte_frame mem a j)

/-- Closed form of the chunked read: byte `i` of `Read(addr, n)` is the
reference memory at `addr + i` modulo `2^24`. -/
theorem flashRead_closed (mem : Nat → Nat) :
    ∀ (n : Nat) (addr : Int), flashRead mem addr n =
      (List.range n).map (fun i : Nat => mem (((addr + (i : Int)) % 16777216).toNat)) := by
  intro n
  induction n using Nat.strong_induction_on with
  | _ n ih =>
    intro addr
    rw [flashRead]
    by_cases h : n = 0
    · subst h; simp
    · rw [if_neg h]
      have hmin : min n maxData ≤ n := Nat.min_le_left n maxData
      have hpos : 0 < min n maxData := by simp only [maxData]; omega
      rw [devRead_frame, ih (n - min n maxData) (by omega)]
      have hsplit : List.range n =
          List.range (min n maxData) ++
            (List.range (n - min n maxData)).map (fun i : Nat => min n maxData + i) := by
        rw [← List.range_add]
        congr 1
        omega
      rw [hsplit, List.map_append, List.map_map]
      congr 1
      apply List.map_congr_left
      intro i _
      simp only [Function.comp]
      have harg : addr + ((min n maxData : Nat) : Int) + (i : Int) =
          addr + ((min n maxData + i : Nat) : Int) := by push_cast; ring
      rw [harg]

/-- C1: for every starting address and byte count, the chunked read
(chunks of `min(remaining, 65532)` bytes, each sub-transaction framed at
the chunk's absolute start address, results concatenated in issuance
order) returns byte-for-byte the same bytes as a single unchunked read of
`[addr, addr+n)` against the reference memory. -/
theorem read_chunked_eq_single (mem : Nat → Nat) (addr : Int) (n : Nat) :
    flashRead mem addr n = singleRead mem addr n := by
  rw [flashRead_closed, singleRead, devRead_frame]

/-- Frame addresses are always 24-bit values. -/
theorem frameAddr_lt (a : Int) : frameAddr a < 16777216 := by
  unfold frameAddr goByte
  have h0 : 0 ≤ a % 256 := Int.emod_nonneg a (by norm_num)
  have h1 : a % 256 < 256 := Int.emod_lt_of_pos a (by norm_num)
  have h2 : 0 ≤ (a / 256) % 256 := Int.emod_nonneg _ (by norm_num)
  have h3 : (a / 256) % 256 < 256 := Int.emod_lt_of_pos _ (by norm_num)
  have h4 : 0 ≤ (a / 65536) % 256 := Int.emod_nonneg _ (by norm_num)
  have h5 : (a / 65536) % 256 < 256 := Int.emod_lt_of_pos _ (by norm_num)
  omega

/-- The number of transactions `Read` issues depends only on `n`. -/
theorem frames_length : ∀ (n : Nat) (addr : Int),
    (flashReadFrames addr n).length = (n + 65531) / 65532 := by
  intro n
  induction n using Nat.strong_induction_on with
  | _ n ih =>
    intro addr
    rw [flashReadFrames]
    by_cases h : n = 0
    · subst h; simp
    · rw [if_neg h]
      have hd : 0 < min n maxData ∧ min n maxData ≤ n := by
        constructor <;> (simp only [maxData]; omega)
      rw [List.length_cons, ih (n - min n maxData) (by omega)]
      simp only [maxData] at *
      omega

/-- Every frame `Read` issues carries a 24-bit address. -/
theorem frames_addr_ok : ∀ (n : Nat) (addr : Int),
    (flashReadFrames addr n).all (fun f => decide (f.1 < 16777216)) = true := by
  intro n
  induction n using Nat.strong_induction_on with
  | _ n ih =>
    intro addr
    rw [flashReadFrames]
    by_cases h : n = 0
    · subst h; simp
    · rw [if_neg h]
      have hd : 0 < min n maxData := by simp only [maxData]; omega
      rw [List.all_cons, ih (n - min n maxData) (by omega)]
      simp [frameAddr_lt addr]

/-- C3 counterexample: `Read(0x1000000, 1)` starts past the 24-bit address
space (`addr + n > 2^24` and even `addr > 0xFFFFFF`), yet a transaction is
issued — framed at the truncated address 0 — instead of the claimed range
error with no transactions. -/
theorem read_out_of_range_issues_tx :
    flashReadFrames 16777216 1 = [(0, 1)] := by
  have h : frameAddr 16777216 = 0 := by rw [frameAddr_eq]; decide
  rw [flashReadFrames, flashReadFrames]
  simp [maxData, h]

/-- C3 (amended): `Read(addr, n)` performs no range validation and cannot
fail with a range error: for every `addr` (valid or not) it issues exactly
`ceil(n / 65532)` transactions, each framed at the chunk's start address
reduced to 24 bits. -/
theorem read_no_validation (addr : Int) (n : Nat) :
    (flashReadFrames addr n).length = (n + 65531) / 65532 ∧
    (flashReadFrames addr n).all (fun f => decide (f.1 < 16777216)) = true :=
  ⟨frames_length n addr, frames_addr_ok n addr⟩

/-- Closed form of the 64KB erase loop: with `q = remaining / 64KB`
iterations, it emits 64KB steps at `addr, addr + 64KB, ...` and leaves
`addr + 64KB * q` and `remaining - 64KB * q`. -/
theorem eraseLoop64_spec : ∀ (q : Nat) (rem addr : Int), rem.toNat / 65536 = q →
    eraseLoop64 rem addr =
      ((List.range q).map (fun k : Nat => EraseStep.e64 (addr + 65536 * k)),
        addr + 65536 * (q : Int), rem - 65536 * (q : Int)) := by
  intro q
  induction q with
  | zero =>
    intro rem addr hq
    rw [eraseLoop64, if_neg (by omega)]
    simp
  | succ q ih =>
    intro rem addr hq
    rw [eraseLoop64, if_pos (by omega)]
    rw [ih (rem - 65536) (addr + 65536) (by omega)]
    simp only [Prod.mk.injEq]
    refine ⟨?_, by push_cast; ring, by push_cast; ring⟩
    rw [List.range_succ_eq_map, List.map_cons, List.map_map]
    simp only [Nat.cast_zero, mul_zero, add_zero]
    congr 1
    apply List.map_congr_left
    intro k _
    simp only [Function.comp]
    congr 1
    push_cast
    ring

/-- Closed form of the 4KB erase loop: `ceil(remaining / 4KB)` steps at
4KB increments. -/
theorem eraseLoop4_spec : ∀ (q : Nat) (rem addr : Int), (rem.toNat + 4095) / 4096 = q →
    eraseLoop4 rem addr = (List.range q).map (fun k : Nat => EraseStep.e4 (addr + 4096 * k)) := by
  intro q
  induction q with
  | zero =>
    intro rem addr hq
    rw [eraseLoop4, if_neg (by omega)]
    simp
  | succ q ih =>
    intro rem addr hq
    rw [eraseLoop4, if_pos (by omega)]
    rw [ih (rem - 4096) (addr + 4096) (by omega)]
    rw [List.range_succ_eq_map, List.map_cons, List.map_map]
    simp only [Nat.cast_zero, mul_zero, add_zero]
    congr 1
    apply List.map_congr_left
    intro k _
    simp only [Function.comp]
    congr 1
    push_cast
    ring

/-- The erase plan equals the spec's greedy decomposition. -/
theorem eraseTrace_eq (base size : Int) :
    eraseTrace base size = eraseGreedySpec base size := by
  unfold eraseTrace eraseGreedySpec
  rw [eraseLoop64_spec (size.toNat / 65536) size base rfl]
  dsimp only
  rw [eraseLoop4_spec ((size.toNat % 65536 + 4095) / 4096)
    (size - 65536 * ((size.toNat / 65536 : Nat) : Int))
    (base + 65536 * ((size.toNat / 65536 : Nat) : Int)) (by omega)]

/-- Every erase step spans a positive number of bytes. -/
theorem stepSize_pos (s : EraseStep) : 0 < stepSize s := by
  cases s <;> simp [stepSize]

theorem sumSizes_nil : sumSizes [] = 0 := rfl

theorem sumSizes_cons (s : EraseStep) (l : List EraseStep) :
    sumSizes (s :: l) = stepSize s + sumSizes l := by
  simp [sumSizes]

theorem sumSizes_append (l1 l2 : List EraseStep) :
    sumSizes (l1 ++ l2) = sumSizes l1 + sumSizes l2 := by
  simp [sumSizes]

theorem sumSizes_nonneg (l : List EraseStep) : 0 ≤ sumSizes l := by
  induction l with
  | nil => simp [sumSizes_nil]
  | cons s l ih => rw [sumSizes_cons]; have := stepSize_pos s; omega

theorem stepChain_append {a : Int} {l1 l2 : List EraseStep}
    (h1 : StepChain a l1) (h2 : StepChain (a + sumSizes l1) l2) :
    StepChain a (l1 ++ l2) := by
  induction h1 with
  | nil a => rw [sumSizes_nil, add_zero] at h2; exact h2
  | cons hs hl ih =>
    rename_i a s l
    refine StepChain.cons hs (ih ?_)
    rw [sumSizes_cons] at h2
    have harr : a + (stepSize s + sumSizes l) = a + stepSize s + sumSizes l := by ring
    rwa [harr] at h2

theorem coveredBy_cons (s : EraseStep) (l : List EraseStep) (x : Int) :
    coveredBy (s :: l) x ↔
      (stepAddr s ≤ x ∧ x < stepAddr s + stepSize s) ∨ coveredBy l x := by
  unfold coveredBy
  constructor
  · rintro ⟨t, ht, hx⟩
    rcases List.mem_cons.mp ht with h | h
    · subst h; exact Or.inl hx
    · exact Or.inr ⟨t, h, hx⟩
  · rintro (hx | ⟨t, ht, hx⟩)
    · exact ⟨s, List.mem_cons_self s l, hx⟩
    · exact ⟨t, List.mem_cons_of_mem s ht, hx⟩

theorem stepChain_covered {a : Int} {l : List EraseStep} (h : StepChain a l) :
    ∀ x : Int, coveredBy l x ↔ a ≤ x ∧ x < a + sumSizes l := by
  induction h with
  | nil a =>
    intro x
    rw [sumSizes_nil]
    simp [coveredBy]
  | cons hs hl ih =>
    rename_i a s l
    intro x
    rw [coveredBy_cons, ih x, sumSizes_cons, hs]
    have h1 := stepSize_pos s
    have h2 := sumSizes_nonneg l
    constructor
    · rintro (h | h) <;> omega
    · intro h
      by_cases hx : x < a + stepSize s
      · exact Or.inl (by omega)
      · exact Or.inr (by omega)

theorem stepChain_lower {a : Int} {l : List EraseStep} (h : StepChain a l) :
    ∀ s ∈ l, a ≤ stepAddr s := by
  induction h with
  | nil a => intro s hs; cases hs
  | cons hs hl ih =>
    rename_i a t l
    intro s hmem
    rcases List.mem_cons.mp hmem with h | h
    · subst h; omega
    · have := ih s h
      have := stepSize_pos t
      omega

theorem stepChain_pairwise {a : Int} {l : List EraseStep} (h : StepChain a l) :
    l.Pairwise stepDisjoint := by
  induction h with
  | nil a => exact List.Pairwise.nil
  | cons hs hl ih =>
    rename_i a s l
    refine List.Pairwise.cons ?_ ih
    intro t ht
    left
    rw [hs]
    exact stepChain_lower hl t ht

theorem stepChain_map_range (f : Int → EraseStep) (sz : Int)
    (hf : ∀ y : Int, stepAddr (f y) = y ∧ stepSize (f y) = sz) (a : Int) :
    ∀ n : Nat, StepChain a ((List.range n).map (fun k : Nat => f (a + sz * k))) ∧
      sumSizes ((List.range n).map (fun k : Nat => f (a + sz * k))) = sz * n := by
  intro n
  induction n with
  | zero => simp [sumSizes_nil]; exact StepChain.nil a
  | succ n ih =>
    have hr : List.range (n + 1) = List.range n ++ [n] := List.range_succ n
    rw [hr, List.map_append]
    constructor
    · refine stepChain_append ih.1 ?_
      rw [ih.2]
      simp only [List.map_cons, List.map_nil]
      refine StepChain.cons ?_ ?_
      · exact (hf (a + sz * n)).1
      · have : a + sz * (n : Int) + stepSize (f (a + sz * (n : Int))) =
            a + sz * (n : Int) + sz := by rw [(hf _).2]
        rw [this]
        exact StepChain.nil _
    · rw [sumSizes_append, ih.2]
      simp only [List.map_cons, List.map_nil, sumSizes_cons, sumSizes_nil]
      rw [(hf _).2]
      push_cast
      ring

/-- C2 (amended): for every base and non-negative size, the erase steps
tile contiguously with no overlaps, but their union is
`[base, base + E)` where `E` is `size` rounded up to the next 4KB
multiple; it equals `[base, base + size)` exactly when 4096 divides
`size`. -/
theorem erase_plan_tiles_roundup (base size : Int) (hsz : 0 ≤ size) :
    (∀ x : Int, coveredBy (eraseTrace base size) x ↔
      base ≤ x ∧ x < base + eraseExtent size) ∧
    List.Pairwise stepDisjoint (eraseTrace base size) ∧
    (size % 4096 = 0 → eraseExtent size = size) := by
  have h64 := stepChain_map_range EraseStep.e64 65536
    (fun y => ⟨rfl, rfl⟩) base (size.toNat / 65536)
  have h4 := stepChain_map_range EraseStep.e4 4096
    (fun y => ⟨rfl, rfl⟩) (base + 65536 * ((size.toNat / 65536 : Nat) : Int))
    ((size.toNat % 65536 + 4095) / 4096)
  have hchain : StepChain base (eraseTrace base size) := by
    rw [eraseTrace_eq]
    unfold eraseGreedySpec
    refine stepChain_append h64.1 ?_
    rw [h64.2]
    exact h4.1
  have hsum : sumSizes (eraseTrace base size) = eraseExtent size := by
    rw [eraseTrace_eq]
    unfold eraseGreedySpec
    rw [sumSizes_append, h64.2, h4.2]
    unfold eraseExtent
    omega
  refine ⟨?_, stepChain_pairwise hchain, ?_⟩
  · intro x
    rw [stepChain_covered hchain x, hsum]
  · intro hdvd
    unfold eraseExtent
    omega

/-- C2 counterexample: `Erase(0, 1)` issues one 4KB step at 0, whose range
`[0, 4096)` contains the point 2 outside the requested `[0, 1)`: the union
of the steps' ranges is not `[base, base + size)`. -/
theorem erase_exact_cover_cex :
    ¬ (∀ x : Int, coveredBy (eraseTrace 0 1) x ↔ 0 ≤ x ∧ x < 0 + 1) := by
  intro h
  have hc : coveredBy (eraseTrace 0 1) 2 := by
    rw [eraseTrace_eq]
    decide
  have h2 := (h 2).mp hc
  omega

/-- Witness for C2 (amended): `Erase(0, 4096)` covers the point 5 and its
steps are pairwise disjoint. -/
theorem erase_plan_tiles_roundup_witness :
    coveredBy (eraseTrace 0 4096) 5 ∧
    List.Pairwise stepDisjoint (eraseTrace 0 4096) := by
  have h := erase_plan_tiles_roundup 0 4096 (by norm_num)
  have he : eraseExtent 4096 = 4096 := h.2.2 (by norm_num)
  refine ⟨(h.1 5).mpr ⟨by norm_num, by omega⟩, h.2.1⟩

/-- C8: the erase command sequence is exactly the greedy one (64KB erases
at base, base+64KB, ... while at least 64KB remain, then 4KB erases at 4KB
increments for the remainder), and in particular `Erase(0x1000, 70*1024)`
issues one 64KB erase at `0x1000` then two 4KB erases at `0x11000` and
`0x12000`. -/
theorem erase_greedy_decomposition :
    (∀ base size : Int, eraseTrace base size = eraseGreedySpec base size) ∧
    eraseTrace 4096 71680 =
      [EraseStep.e64 4096, EraseStep.e4 69632, EraseStep.e4 73728] := by
  refine ⟨eraseTrace_eq, ?_⟩
  rw [eraseTrace_eq]
  decide

/-- C10: whenever the page-program step is called with an out-of-range
address (`addr < 0` or `addr > 0xFFFFFF`) or a payload longer than 256
bytes, the WriteEnable command has already been transmitted when the
validation error is returned: the trace is exactly `[WriteEnable]` with the
error, so a validation failure does not imply that no bus transaction
occurred. -/
theorem page_program_we_before_error (addr : Int) (data : List Nat)
    (h : addr < 0 ∨ addr > 16777215 ∨ data.length > 256) :
    pageProgramModel addr data =
      ([Cmd.writeEnable],
        some (if addr < 0 ∨ addr > 16777215 then PErr.addrRange else PErr.dataTooLong)) := by
  unfold pageProgramModel
  by_cases h1 : addr < 0 ∨ addr > 16777215
  · simp [h1]
  · have h2 : data.length > 256 := by tauto
    simp [h1, h2]

/-- Witness for C10: a negative address yields the WriteEnable-then-error
trace. -/
theorem page_program_we_before_error_witness :
    pageProgramModel (-1) [] = ([Cmd.writeEnable], some PErr.addrRange) := by
  have h := page_program_we_before_error (-1) [] (by norm_num)
  norm_num at h
  exact h

/-- Generalized trace of `Write`: starting at a valid `addr`, the trace is
one triple per piece, pieces indexed from `j`, the piece with index `i`
programmed at `addr + 256 * (i - j)`. -/
theorem writeGo_enumFrom : ∀ (L : Nat) (data : List Nat) (addr : Int) (j : Nat),
    data.length = L → 0 ≤ addr → addr + data.length ≤ 16777216 →
    writeGo data addr =
      (((List.enumFrom j (chunks256 data)).map
        (fun p => pieceTriple (addr + 256 * (p.1 : Int) - 256 * (j : Int)) p.2)).flatten,
        none) := by
  intro L
  induction L using Nat.strong_induction_on with
  | _ L ih =>
    intro data addr j hL h0 hub
    by_cases hemp : data = []
    · subst hemp
      rw [writeGo, chunks256]
      simp
    · have hpos : 0 < data.length := List.length_pos.mpr hemp
      have hne : data.isEmpty = false := by simp [List.isEmpty_iff, hemp]
      have htake : (data.take 256).length = min 256 data.length := by
        simp [List.length_take]
      have hvalid : pageProgramModel addr (data.take 256) =
          ([Cmd.writeEnable, Cmd.pageProgram addr (data.take 256), Cmd.busyWait], none) := by
        unfold pageProgramModel
        rw [if_neg (by omega), if_neg (by omega)]
      have hdrop : (data.drop 256).length = data.length - 256 := by
        simp [List.length_drop]
      rw [writeGo, hne]
      simp only [Bool.false_eq_true, if_false, hvalid]
      conv_rhs => rw [chunks256, hne]
      simp only [Bool.false_eq_true, if_false, List.enumFrom_cons, List.map_cons,
        List.flatten_cons]
      have hhead : addr + 256 * (j : Int) - 256 * (j : Int) = addr := by ring
      rw [hhead]
      rw [ih (data.drop 256).length (by omega) (data.drop 256)
        (addr + (data.take 256).length) (j + 1) rfl (by omega) (by omega)]
      dsimp only
      congr 2
      by_cases hsmall : data.length ≤ 256
      · have hnil : data.drop 256 = [] := List.drop_eq_nil_of_le hsmall
        rw [hnil, chunks256]
        simp
      · have h256 : (data.take 256).length = 256 := by omega
        rw [h256]
        congr 1
        apply List.map_congr_left
        intro p _
        congr 1
        push_cast
        ring

/-- Trace of `Write` from a valid starting address: one
WriteEnable / PageProgram / busy-wait triple per 256-byte piece, the k-th
piece at `addr + 256 * k`. -/
theorem writeGo_spec (data : List Nat) (addr : Int)
    (h0 : 0 ≤ addr) (hub : addr + data.length ≤ 16777216) :
    writeGo data addr =
      ((((chunks256 data).enum).map
        (fun p => pieceTriple (addr + 256 * (p.1 : Int)) p.2)).flatten, none) := by
  rw [writeGo_enumFrom data.length data addr 0 rfl h0 hub]
  congr 2
  apply List.map_congr_left
  intro p _
  congr 1
  push_cast
  ring

/-- The stream of `L` bytes is consumed in `ceil(L / 256)` pieces. -/
theorem chunks256_length : ∀ (L : Nat) (data : List Nat), data.length = L →
    (chunks256 data).length = (data.length + 255) / 256 := by
  intro L
  induction L using Nat.strong_induction_on with
  | _ L ih =>
    intro data hL
    by_cases hemp : data = []
    · subst hemp; rw [chunks256]; simp
    · have hpos : 0 < data.length := List.length_pos.mpr hemp
      have hne : data.isEmpty = false := by simp [List.isEmpty_iff, hemp]
      have hdrop : (data.drop 256).length = data.length - 256 := by
        simp [List.length_drop]
      rw [chunks256, hne]
      simp only [Bool.false_eq_true, if_false, List.length_cons]
      rw [ih (data.drop 256).length (by omega) (data.drop 256) rfl]
      omega

/-- PageProgram counting distributes over concatenation. -/
theorem countPP_append (l1 l2 : List Cmd) :
    countPP (l1 ++ l2) = countPP l1 + countPP l2 := by
  simp [countPP, List.filter_append]

/-- Each piece triple contains exactly one PageProgram. -/
theorem countPP_triple (a : Int) (piece : List Nat) :
    countPP (pieceTriple a piece) = 1 := rfl

/-- A flattened list of piece triples contains one PageProgram per piece. -/
theorem countPP_flatten_triples (g : Nat × List Nat → Int) :
    ∀ (l : List (Nat × List Nat)),
    countPP ((l.map (fun p => pieceTriple (g p) p.2)).flatten) = l.length := by
  intro l
  induction l with
  | nil => rfl
  | cons p l ih =>
    rw [List.map_cons, List.flatten_cons, countPP_append, countPP_triple, ih,
      List.length_cons]
    omega

/-- C7 (amended): for a non-empty stream of `L ≤ 2^24` bytes delivered in
full 256-byte pieces until the data runs out, `Write` issues exactly
`ceil(L / 256)` PageProgram commands, each immediately preceded by a
WriteEnable and followed by a busy wait, the k-th piece programmed at
address `256 * k` (the total length of the previously consumed pieces,
starting at 0). -/
theorem write_trace_spec (data : List Nat) (_hne : data ≠ [])
    (hub : (data.length : Int) ≤ 16777216) :
    writeGo data 0 = (specWriteTrace data, none) ∧
    countPP (writeGo data 0).1 = (data.length + 255) / 256 := by
  have h := writeGo_spec data 0 (le_refl 0) (by omega)
  have htr : writeGo data 0 = (specWriteTrace data, none) := by
    rw [h]
    unfold specWriteTrace
    congr 2
    apply List.map_congr_left
    intro p _
    congr 1
    ring
  refine ⟨htr, ?_⟩
  rw [htr]
  show countPP (specWriteTrace data) = _
  unfold specWriteTrace
  rw [countPP_flatten_triples (fun p => 256 * (p.1 : Int)) ((chunks256 data).enum)]
  rw [List.enum_length]
  exact chunks256_length data.length data rfl

/-- Witness for C7 (amended): a 1-byte stream produces exactly the single
triple programmed at address 0. -/
theorem write_trace_spec_witness :
    writeGo [7] 0 = ([Cmd.writeEnable, Cmd.pageProgram 0 [7], Cmd.busyWait], none) ∧
    countPP (writeGo [7] 0).1 = 1 := by
  have h := write_trace_spec [7] (by simp) (by norm_num)
  have hs : specWriteTrace [7] = [Cmd.writeEnable, Cmd.pageProgram 0 [7], Cmd.busyWait] := by
    unfold specWriteTrace
    rw [chunks256]
    simp only [List.isEmpty_cons, Bool.false_eq_true, if_false]
    rw [chunks256]
    simp [pieceTriple]
  exact ⟨by rw [h.1, hs], by rw [h.2]; norm_num⟩


/-- On a stream that still has `256 * q + 1` bytes left when the address
reaches `2^24 - 256 * q`, exactly `q` further PageProgram commands are
issued: the final 1-byte piece fails the 24-bit address check (after its
WriteEnable) and aborts the write. -/
theorem writeGo_replicate : ∀ (q : Nat) (addr : Int) (b : Nat),
    0 ≤ addr → addr + 256 * q = 16777216 →
    countPP (writeGo (List.replicate (256 * q + 1) b) addr).1 = q := by
  intro q
  induction q with
  | zero =>
    intro addr b h0 hq
    have h1 : 256 * 0 + 1 = 1 := by norm_num
    rw [h1, List.replicate_one, writeGo]
    rw [if_neg (by simp)]
    have haddr : addr < 0 ∨ addr > 16777215 := by omega
    unfold pageProgramModel
    rw [if_pos haddr]
    rfl
  | succ q ih =>
    intro addr b h0 hq
    have hlen : (256 * (q + 1) + 1) = 256 * q + 257 := by ring
    rw [writeGo]
    rw [if_neg (by simp)]
    have htake : (List.replicate (256 * (q + 1) + 1) b).take 256 = List.replicate 256 b := by
      rw [List.take_replicate]
      have hm : min 256 (256 * (q + 1) + 1) = 256 := by omega
      rw [hm]
    have hdrop : (List.replicate (256 * (q + 1) + 1) b).drop 256 =
        List.replicate (256 * q + 1) b := by
      rw [List.drop_replicate]
      have hm : 256 * (q + 1) + 1 - 256 = 256 * q + 1 := by omega
      rw [hm]
    rw [htake, hdrop]
    have hvalid : pageProgramModel addr (List.replicate 256 b) =
        ([Cmd.writeEnable, Cmd.pageProgram addr (List.replicate 256 b), Cmd.busyWait], none) := by
      unfold pageProgramModel
      rw [if_neg (by omega), if_neg (by rw [List.length_replicate]; omega)]
    rw [hvalid]
    dsimp only
    rw [List.length_replicate]
    rw [countPP_append, Nat.cast_ofNat]
    rw [ih (addr + 256) b (by omega) (by push_cast at hq; omega)]
    have hcount : countPP [Cmd.writeEnable, Cmd.pageProgram addr (List.replicate 256 b),
      Cmd.busyWait] = 1 := rfl
    omega

/-- C7 counterexample: a stream of `2^24 + 1` bytes issues only `65536`
PageProgram commands, not `ceil(L / 256) = 65537`: the last piece's address
`2^24` fails validation and `Write` aborts with a range error. -/
theorem write_page_count_cex :
    countPP (writeGo (List.replicate 16777217 0) 0).1 = 65536 ∧
    (16777217 + 255) / 256 = 65537 := by
  constructor
  · have h : (16777217 : Nat) = 256 * 65536 + 1 := by norm_num
    rw [h]
    exact writeGo_replicate 65536 0 0 (le_refl 0) (by norm_num)
  · norm_num

end Gice
